import Mathlib

/-!
Shallow embedding of the blueis key-value platform:
the store engine (internal/kvstore, package kvstore), the key-value
service facade, and the consistent-hashing ring (NodeService).

Modelling conventions:
* Go `map[string]string` becomes the function `String → Option String`;
  Go `map[int]Node` becomes `Nat → Option Node` (Go map lookup of a
  missing key yields the zero value, modelled by `Option.getD`).
* Go channels are elided: a caller's command is applied synchronously
  and the (state, output) pair is returned.  Errors are modelled as
  `Option String` holding the error message (`none` = nil error).
* Go `uint32` arithmetic is `Nat` reduced `% 4294967296`.
-/

/-- Command-type constant `DELETE` (iota 0 in package kvstore). -/
def DELETE : Nat := 0

/-- Command-type constant `UPDATE` (iota 1; declared but never dispatched). -/
def UPDATE : Nat := 1

/-- Command-type constant `PUT` (iota 2). -/
def PUT : Nat := 2

/-- Command-type constant `GET` (iota 3). -/
def GET : Nat := 3

/-- A `KeyValueCommand` as sent to the store engine (the response channel
field is elided; responses are returned directly). -/
structure KeyValueCommand where
  commandType : Nat
  key : String
  value : Option String
deriving DecidableEq

/-- A `KeyValueOutput`: success flag, optional value, optional error message. -/
structure KeyValueOutput where
  success : Bool
  value : Option String
  err : Option String
deriving DecidableEq

/-- The store engine's state: the key-value map of `KeyValueStore`. -/
structure KeyValueStore where
  store : String → Option String

/-- The empty store built by `InitKeyValueStore` (`make(map[string]string)`). -/
def InitKeyValueStore : KeyValueStore := ⟨fun _ => none⟩

/-- `KeyValueStore.ProcessPutCommand`: a nil value is an error; otherwise
store the value under the key and echo it back. -/
def KeyValueStore.ProcessPutCommand (kvStore : KeyValueStore) (command : KeyValueCommand) :
    KeyValueStore × KeyValueOutput :=
  match command.value with
  | none => (kvStore, ⟨false, none, some "value given was nil for put command"⟩)
  | some v =>
      (⟨fun k => if k = command.key then some v else kvStore.store k⟩, ⟨true, some v, none⟩)

/-- `KeyValueStore.ProcessGetCommand`: look the key up; missing keys are an
error and never mutate the map. -/
def KeyValueStore.ProcessGetCommand (kvStore : KeyValueStore) (command : KeyValueCommand) :
    KeyValueStore × KeyValueOutput :=
  (kvStore,
    match kvStore.store command.key with
    | some v => ⟨true, some v, none⟩
    | none => ⟨false, none, some ("key " ++ command.key ++ " does not exist in the store")⟩)

/-- `KeyValueStore.ProcessDeleteCommand`: delete-if-present; deleting a
missing key succeeds with no value and no error. -/
def KeyValueStore.ProcessDeleteCommand (kvStore : KeyValueStore) (command : KeyValueCommand) :
    KeyValueStore × KeyValueOutput :=
  match kvStore.store command.key with
  | some v =>
      (⟨fun k => if k = command.key then none else kvStore.store k⟩, ⟨true, some v, none⟩)
  | none => (kvStore, ⟨true, none, none⟩)

/-- `GetCommandTypeString`: printable name of a command type. -/
def GetCommandTypeString (commandType : Nat) : String :=
  if commandType = PUT then "PUT"
  else if commandType = DELETE then "DELETE"
  else if commandType = GET then "GET"
  else "UNKNOWN"

/-- `KeyValueStore.ProcessCommand`: dispatch on the command type; an
unrecognized type replies failure and leaves the map untouched. -/
def KeyValueStore.ProcessCommand (kvStore : KeyValueStore) (command : KeyValueCommand) :
    KeyValueStore × KeyValueOutput :=
  if command.commandType = PUT then kvStore.ProcessPutCommand command
  else if command.commandType = GET then kvStore.ProcessGetCommand command
  else if command.commandType = DELETE then kvStore.ProcessDeleteCommand command
  else
    (kvStore,
      ⟨false, none,
        some ("command type " ++ GetCommandTypeString command.commandType ++ " not found")⟩)

/-- The `KeyValueService` facade: active flag plus the engine state it owns
(the channel and the cancel function are elided; commands are applied
synchronously). -/
structure KeyValueService where
  isActive : Bool
  store : KeyValueStore

/-- `KeyValueService.Close`: clear the active flag (the context-cancel
side effect that stops the engine worker is outside the state model). -/
def KeyValueService.Close (kvService : KeyValueService) : KeyValueService :=
  { kvService with isActive := false }

/-- `KeyValueService.CheckActive`: nil when active, otherwise the
"KeyValueService has been closed" error. -/
def KeyValueService.CheckActive (kvService : KeyValueService) : Option String :=
  if kvService.isActive then none else some "KeyValueService has been closed"

/-- `KeyValueService.Set`: refuse when closed; otherwise run a PUT command
(the value pointer `&value` is never nil, hence `some value`) and return
the reply's (value, error) pair. -/
def KeyValueService.Set (kvService : KeyValueService) (key value : String) :
    KeyValueService × Option String × Option String :=
  match kvService.CheckActive with
  | some e => (kvService, none, some e)
  | none =>
      let r := kvService.store.ProcessCommand ⟨PUT, key, some value⟩
      ({ kvService with store := r.1 }, r.2.value, r.2.err)

/-- `KeyValueService.Get`: refuse when closed; otherwise run a GET command. -/
def KeyValueService.Get (kvService : KeyValueService) (key : String) :
    KeyValueService × Option String × Option String :=
  match kvService.CheckActive with
  | some e => (kvService, none, some e)
  | none =>
      let r := kvService.store.ProcessCommand ⟨GET, key, none⟩
      ({ kvService with store := r.1 }, r.2.value, r.2.err)

/-- `KeyValueService.Delete`: refuse when closed; otherwise run a DELETE
command (value pointer nil, hence `none`). -/
def KeyValueService.Delete (kvService : KeyValueService) (key : String) :
    KeyValueService × Option String × Option String :=
  match kvService.CheckActive with
  | some e => (kvService, none, some e)
  | none =>
      let r := kvService.store.ProcessCommand ⟨DELETE, key, none⟩
      ({ kvService with store := r.1 }, r.2.value, r.2.err)

/-- `fnv32`: FNV-1a 32-bit hash (hash/fnv `New32a`) of a byte sequence:
offset basis 2166136261, per byte xor then multiply by prime 16777619,
all modulo 2^32. -/
def fnv32 (data : List Nat) : Nat :=
  data.foldl (fun h b => ((h ^^^ b) * 16777619) % 4294967296) 2166136261

/-- UTF-8 bytes of a string, as the list of its characters' code points.
This agrees with Go's `[]byte(s)` for ASCII strings, and every string the
ring hashes (decimal id, dash, decimal index) is ASCII. -/
def strBytes (s : String) : List Nat := s.data.map Char.toNat

/-- A physical `Node`: integer id and url. -/
structure Node where
  id : Nat
  url : String
deriving DecidableEq

/-- `MakeNode` constructor. -/
def MakeNode (id : Nat) (url : String) : Node := ⟨id, url⟩

/-- A virtual-node record `VNode`: owning physical node id and ring hash. -/
structure VNode where
  nodeId : Nat
  hash : Nat
deriving DecidableEq

/-- Ring order on virtual nodes: by hash, the comparator of AddNode's sort. -/
def VNode.le (a b : VNode) : Prop := a.hash ≤ b.hash

instance : DecidableRel VNode.le := fun a b => Nat.decLe a.hash b.hash

instance : IsTotal VNode VNode.le := ⟨fun a b => Nat.le_total a.hash b.hash⟩

instance : IsTrans VNode VNode.le := ⟨fun _ _ _ h1 h2 => Nat.le_trans h1 h2⟩

/-- `NodeService` state: vnodes-per-weight factor, physical-node registry,
virtual-node sequence, and the next id to hand out. -/
structure NodeService where
  nodesPerWeight : Nat
  nodes : Nat → Option Node
  vnodes : List VNode
  latestNodeId : Nat

/-- `MakeNodeService`: empty registry, empty ring, ids start at 0. -/
def MakeNodeService (nodesPerWeight : Nat) : NodeService :=
  ⟨nodesPerWeight, fun _ => none, [], 0⟩

/-- The virtual-node key `fmt.Sprintf` of id, dash, index (ids are never
negative, so the decimal rendering is plain `Nat.repr`). -/
def vnodeKey (id i : Nat) : String := Nat.repr id ++ "-" ++ Nat.repr i

/-- The virtual nodes AddNode generates for `id`, in loop order
i = 0, …, n-1. -/
def vnodeRange (id n : Nat) : List VNode :=
  (List.range n).map fun i => ⟨id, fnv32 (strBytes (vnodeKey id i))⟩

/-- `NodeService.AddNode`: take the next id, append the generated virtual
nodes and sort the whole sequence by hash, register the physical node.
Go sorts with `sort.Slice` and a hash-only comparator, which guarantees a
by-hash sorted permutation but is not a stable sort; the embedding fixes
insertion sort as one concrete sorted-permutation implementation. -/
def NodeService.AddNode (nodeService : NodeService) (url : String) (weight : Nat) :
    NodeService :=
  let numVNodes := weight * nodeService.nodesPerWeight
  let id := nodeService.latestNodeId
  { nodesPerWeight := nodeService.nodesPerWeight
    nodes := fun j => if j = id then some (MakeNode id url) else nodeService.nodes j
    vnodes := List.insertionSort VNode.le (nodeService.vnodes ++ vnodeRange id numVNodes)
    latestNodeId := id + 1 }

/-- `NodeService.RemoveNode`: keep exactly the virtual nodes of other ids
(in order, as the Go filter loop does) and drop the registry entry. -/
def NodeService.RemoveNode (nodeService : NodeService) (id : Nat) : NodeService :=
  { nodeService with
      vnodes := nodeService.vnodes.filter fun vn => id != vn.nodeId
      nodes := fun j => if j = id then none else nodeService.nodes j }

/-- The loop of Go's `sort.Search` on the interval [i, j): probe the
midpoint, narrow to the left half when the predicate holds, else to the
right.  Structural recursion on a fuel argument; `sortSearch` supplies
fuel `n ≥ j - i`, which the loop never exhausts. -/
def searchGo (f : Nat → Bool) : Nat → Nat → Nat → Nat
  | 0, i, _ => i
  | fuel + 1, i, j =>
      if i < j then
        let m := (i + j) / 2
        if f m then searchGo f fuel i m else searchGo f fuel (m + 1) j
      else i

/-- Go `sort.Search n f`: smallest index in [0, n) satisfying a monotone
predicate, or n when none does. -/
def sortSearch (n : Nat) (f : Nat → Bool) : Nat := searchGo f n 0 n

/-- `NodeService.FindNode`: binary-search for the first virtual node with
hash ≥ the query, wrap to index 0 past the end, and resolve the owning
physical node in the registry (a missing registry entry yields the Go
zero value, `MakeNode 0 ""`).  On an empty ring the Go code panics
indexing the first element; the `getD` defaults stand in for that
unreachable access, and the theorems below assume a non-empty ring. -/
def NodeService.FindNode (nodeService : NodeService) (hash : Nat) : Node :=
  let idx := sortSearch nodeService.vnodes.length
    (fun i => decide (hash ≤ (nodeService.vnodes.getD i ⟨0, 0⟩).hash))
  let idx2 := if idx = nodeService.vnodes.length then 0 else idx
  let vn := nodeService.vnodes.getD idx2 ⟨0, 0⟩
  (nodeService.nodes vn.nodeId).getD (MakeNode 0 "")

/-- Spec-worded lookup, the refinement target for FindNode: the first
entry (in sequence order, hence ascending-hash order on a sorted ring)
whose hash is ≥ the query — `List.findIdx` returns the length when no
entry qualifies, which the wrap-around turns into index 0. -/
def FindNodeSpec (nodeService : NodeService) (hash : Nat) : Node :=
  let idx := nodeService.vnodes.findIdx fun vn => decide (hash ≤ vn.hash)
  let idx2 := if idx = nodeService.vnodes.length then 0 else idx
  let vn := nodeService.vnodes.getD idx2 ⟨0, 0⟩
  (nodeService.nodes vn.nodeId).getD (MakeNode 0 "")

/-- A membership operation on the ring. -/
inductive Op where
  | add (url : String) (weight : Nat)
  | remove (id : Nat)

/-- Apply one membership operation. -/
def applyOp (s : NodeService) : Op → NodeService
  | .add url weight => s.AddNode url weight
  | .remove id => s.RemoveNode id

/-- Apply a sequence of membership operations, oldest first. -/
def applyOps (s : NodeService) (ops : List Op) : NodeService :=
  ops.foldl applyOp s

/-- States reachable from a fresh ring by AddNode/RemoveNode calls. -/
def Reachable (s : NodeService) : Prop :=
  ∃ npw ops, s = applyOps (MakeNodeService npw) ops

/-- Ring bookkeeping invariant: every id in use (of a virtual node or a
registered physical node) is below `latestNodeId`, and every virtual
node's id is registered. -/
def RingInv (s : NodeService) : Prop :=
  (∀ vn ∈ s.vnodes, vn.nodeId < s.latestNodeId) ∧
  (∀ id, s.latestNodeId ≤ id → s.nodes id = none) ∧
  (∀ vn ∈ s.vnodes, (s.nodes vn.nodeId).isSome = true)

/-- C1: on an active Key-Value Service, Set(K,V) returns V with no error,
and an immediately following Get(K) returns V with no error. -/
theorem set_then_get_returns_value (s : KeyValueService) (k v : String)
    (h : s.isActive = true) :
    (s.Set k v).2.1 = some v ∧ (s.Set k v).2.2 = none ∧
    (((s.Set k v).1).Get k).2.1 = some v ∧ (((s.Set k v).1).Get k).2.2 = none := by
  simp [KeyValueService.Set, KeyValueService.Get, KeyValueService.CheckActive,
    KeyValueStore.ProcessCommand, KeyValueStore.ProcessPutCommand,
    KeyValueStore.ProcessGetCommand, PUT, GET, h]

/-- Witness for C1 at the active service over the empty store. -/
theorem set_then_get_witness :
    (⟨true, InitKeyValueStore⟩ : KeyValueService).isActive = true ∧
    ((⟨true, InitKeyValueStore⟩ : KeyValueService).Set "a" "b").2.1 = some "b" := by
  exact ⟨rfl, (set_then_get_returns_value ⟨true, InitKeyValueStore⟩ "a" "b" rfl).1⟩

/-- C2: on a store where the key is absent, DELETE replies success with no
value and no error, a repeated DELETE does the same, and GET replies
failure with a key-not-found error and no value. -/
theorem delete_get_missing (st : KeyValueStore) (key : String)
    (h : st.store key = none) :
    st.ProcessDeleteCommand ⟨DELETE, key, none⟩ = (st, ⟨true, none, none⟩) ∧
    (st.ProcessDeleteCommand ⟨DELETE, key, none⟩).1.ProcessDeleteCommand ⟨DELETE, key, none⟩
      = ((st.ProcessDeleteCommand ⟨DELETE, key, none⟩).1, ⟨true, none, none⟩) ∧
    st.ProcessGetCommand ⟨GET, key, none⟩
      = (st, ⟨false, none, some ("key " ++ key ++ " does not exist in the store")⟩) := by
  simp [KeyValueStore.ProcessDeleteCommand, KeyValueStore.ProcessGetCommand, h]

/-- Witness for C2 on the empty store. -/
theorem delete_get_missing_witness :
    InitKeyValueStore.store "a" = none ∧
    (InitKeyValueStore.ProcessDeleteCommand ⟨DELETE, "a", none⟩
        = (InitKeyValueStore, ⟨true, none, none⟩) ∧
      (InitKeyValueStore.ProcessDeleteCommand ⟨DELETE, "a", none⟩).1.ProcessDeleteCommand
          ⟨DELETE, "a", none⟩
        = ((InitKeyValueStore.ProcessDeleteCommand ⟨DELETE, "a", none⟩).1, ⟨true, none, none⟩) ∧
      InitKeyValueStore.ProcessGetCommand ⟨GET, "a", none⟩
        = (InitKeyValueStore, ⟨false, none, some ("key " ++ "a" ++ " does not exist in the store")⟩)) :=
  ⟨rfl, delete_get_missing InitKeyValueStore "a" rfl⟩

/-- C7: after Close, Set, Get and Delete all return a nil value with the
service-closed error, and the store state (in particular its key-value
map) is unchanged. -/
theorem closed_ops (s : KeyValueService) (k v : String) :
    s.Close.Set k v = (s.Close, none, some "KeyValueService has been closed") ∧
    s.Close.Get k = (s.Close, none, some "KeyValueService has been closed") ∧
    s.Close.Delete k = (s.Close, none, some "KeyValueService has been closed") ∧
    s.Close.store = s.store := by
  refine ⟨rfl, rfl, rfl, rfl⟩

/-- C8: a GET command leaves the map unchanged; PUT and DELETE change at
most the binding of their own key (all other keys keep their bindings),
a PUT with a present value binds its key to that value, and a DELETE
leaves its key unbound. -/
theorem frame_effects (st : KeyValueStore) (key k2 : String) (v : Option String) (x : String)
    (hk : k2 ≠ key) :
    (st.ProcessCommand ⟨GET, key, v⟩).1 = st ∧
    ((st.ProcessCommand ⟨PUT, key, v⟩).1).store k2 = st.store k2 ∧
    ((st.ProcessCommand ⟨DELETE, key, v⟩).1).store k2 = st.store k2 ∧
    ((st.ProcessCommand ⟨PUT, key, some x⟩).1).store key = some x ∧
    ((st.ProcessCommand ⟨DELETE, key, v⟩).1).store key = none := by
  refine ⟨rfl, ?_, ?_, ?_, ?_⟩
  · cases v with
    | none => rfl
    | some y =>
        simp [KeyValueStore.ProcessCommand, KeyValueStore.ProcessPutCommand, PUT, GET, DELETE, hk]
  · simp only [KeyValueStore.ProcessCommand, KeyValueStore.ProcessDeleteCommand, PUT, GET, DELETE]
    cases hcase : st.store key with
    | none => simp
    | some y => simp [hk]
  · simp [KeyValueStore.ProcessCommand, KeyValueStore.ProcessPutCommand, PUT]
  · simp only [KeyValueStore.ProcessCommand, KeyValueStore.ProcessDeleteCommand, PUT, GET, DELETE]
    cases hcase : st.store key with
    | none => simpa using hcase
    | some y => simp

/-- Witness for C8 on the empty store with two distinct keys. -/
theorem frame_effects_witness :
    ("b" : String) ≠ "a" ∧
    ((InitKeyValueStore.ProcessCommand ⟨GET, "a", none⟩).1 = InitKeyValueStore ∧
      ((InitKeyValueStore.ProcessCommand ⟨PUT, "a", none⟩).1).store "b" = InitKeyValueStore.store "b" ∧
      ((InitKeyValueStore.ProcessCommand ⟨DELETE, "a", none⟩).1).store "b" = InitKeyValueStore.store "b" ∧
      ((InitKeyValueStore.ProcessCommand ⟨PUT, "a", some "x"⟩).1).store "a" = some "x" ∧
      ((InitKeyValueStore.ProcessCommand ⟨DELETE, "a", none⟩).1).store "a" = none) :=
  ⟨by decide, frame_effects InitKeyValueStore "a" "b" none "x" (by decide)⟩

/-- C10: on an active service, Set(K, "") succeeds and a following Get(K)
returns the empty string with no error — an empty-string value is stored,
and is distinct from the absent-value (nil) result. -/
theorem empty_string_is_a_value (s : KeyValueService) (k : String)
    (h : s.isActive = true) :
    (s.Set k "").2.1 = some "" ∧ (s.Set k "").2.2 = none ∧
    (((s.Set k "").1).Get k).2.1 = some "" ∧ (((s.Set k "").1).Get k).2.2 = none ∧
    (((s.Set k "").1).Get k).2.1 ≠ none := by
  simp [KeyValueService.Set, KeyValueService.Get, KeyValueService.CheckActive,
    KeyValueStore.ProcessCommand, KeyValueStore.ProcessPutCommand,
    KeyValueStore.ProcessGetCommand, PUT, GET, h]

/-- Witness for C10 at the active service over the empty store. -/
theorem empty_string_is_a_value_witness :
    (⟨true, InitKeyValueStore⟩ : KeyValueService).isActive = true ∧
    (((⟨true, InitKeyValueStore⟩ : KeyValueService).Set "a" "").1.Get "a").2.1 = some "" :=
  ⟨rfl, (empty_string_is_a_value ⟨true, InitKeyValueStore⟩ "a" rfl).2.2.1⟩

/-- One AddNode or RemoveNode step preserves sortedness of the ring. -/
theorem sorted_applyOp (s : NodeService) (op : Op) (h : List.Sorted VNode.le s.vnodes) :
    List.Sorted VNode.le (applyOp s op).vnodes := by
  cases op with
  | add url weight => exact List.sorted_insertionSort VNode.le _
  | remove id =>
      exact List.Pairwise.sublist (List.filter_sublist s.vnodes) h

/-- A sequence of ring operations preserves sortedness. -/
theorem sorted_applyOps (ops : List Op) :
    ∀ s : NodeService, List.Sorted VNode.le s.vnodes →
      List.Sorted VNode.le (applyOps s ops).vnodes := by
  induction ops with
  | nil => intro s h; exact h
  | cons op ops ih =>
      intro s h
      exact ih (applyOp s op) (sorted_applyOp s op h)

/-- C4: in every state reachable from the empty ring by AddNode (which
re-sorts) and RemoveNode (which filters in order), the virtual-node
sequence is sorted ascending by hash. -/
theorem ring_always_sorted (npw : Nat) (ops : List Op) :
    List.Sorted VNode.le ((applyOps (MakeNodeService npw) ops).vnodes) :=
  sorted_applyOps ops (MakeNodeService npw) List.sorted_nil

/-- One ring operation preserves the bookkeeping invariant. -/
theorem ringInv_applyOp (s : NodeService) (op : Op) (h : RingInv s) :
    RingInv (applyOp s op) := by
  obtain ⟨h1, h2, h3⟩ := h
  cases op with
  | add url weight =>
      refine ⟨?_, ?_, ?_⟩
      · intro vn hvn
        have hmem : vn ∈ s.vnodes ++ vnodeRange s.latestNodeId (weight * s.nodesPerWeight) :=
          (List.perm_insertionSort VNode.le _).mem_iff.mp hvn
        rcases List.mem_append.mp hmem with hl | hr
        · exact Nat.lt_succ_of_lt (h1 vn hl)
        · obtain ⟨i, _, rfl⟩ := List.mem_map.mp hr
          exact Nat.lt_succ_self _
      · intro id hid
        have hlat : (applyOp s (Op.add url weight)).latestNodeId = s.latestNodeId + 1 := rfl
        rw [hlat] at hid
        have hne : id ≠ s.latestNodeId := by omega
        simpa [applyOp, NodeService.AddNode, hne] using h2 id (by omega)
      · intro vn hvn
        have hmem : vn ∈ s.vnodes ++ vnodeRange s.latestNodeId (weight * s.nodesPerWeight) :=
          (List.perm_insertionSort VNode.le _).mem_iff.mp hvn
        rcases List.mem_append.mp hmem with hl | hr
        · have hlt := h1 vn hl
          have hne : vn.nodeId ≠ s.latestNodeId := Nat.ne_of_lt hlt
          simpa [applyOp, NodeService.AddNode, hne] using h3 vn hl
        · obtain ⟨i, _, rfl⟩ := List.mem_map.mp hr
          simp [applyOp, NodeService.AddNode]
  | remove rid =>
      refine ⟨?_, ?_, ?_⟩
      · intro vn hvn
        exact h1 vn (List.mem_of_mem_filter hvn)
      · intro id hid
        by_cases hne : id = rid
        · simp [applyOp, NodeService.RemoveNode, hne]
        · simpa [applyOp, NodeService.RemoveNode, hne] using h2 id hid
      · intro vn hvn
        have hmem := List.mem_filter.mp hvn
        have hne : rid ≠ vn.nodeId := by
          have := hmem.2
          simpa [bne_iff_ne] using this
        simpa [applyOp, NodeService.RemoveNode, Ne.symm hne] using h3 vn hmem.1

/-- A sequence of ring operations preserves the bookkeeping invariant. -/
theorem ringInv_applyOps (ops : List Op) :
    ∀ s : NodeService, RingInv s → RingInv (applyOps s ops) := by
  induction ops with
  | nil => intro s h; exact h
  | cons op ops ih => intro s h; exact ih (applyOp s op) (ringInv_applyOp s op h)

/-- Every reachable ring state satisfies the bookkeeping invariant. -/
theorem reachable_ringInv (s : NodeService) (h : Reachable s) : RingInv s := by
  obtain ⟨npw, ops, rfl⟩ := h
  refine ringInv_applyOps ops (MakeNodeService npw) ?_
  refine ⟨?_, ?_, ?_⟩
  · intro vn hvn; cases hvn
  · intro id _; rfl
  · intro vn hvn; cases hvn

/-- C5: on a reachable ring, AddNode hands out `latestNodeId` — an id that
is 0 on a fresh ring, bumped by one per call, and in use by no virtual
node and no registered node (so never reused) — and inserts exactly
weight × nodesPerWeight virtual nodes for that id, the i-th hashed as
FNV-1a of the key built from the id and i; the node itself is registered
under that id. -/
theorem addnode_fresh_id_vnodes (s : NodeService) (url : String) (w : Nat)
    (h : Reachable s) :
    (∀ m, (MakeNodeService m).latestNodeId = 0) ∧
    (s.AddNode url w).latestNodeId = s.latestNodeId + 1 ∧
    s.nodes s.latestNodeId = none ∧
    (∀ vn ∈ s.vnodes, vn.nodeId ≠ s.latestNodeId) ∧
    (s.AddNode url w).vnodes.countP (fun vn => vn.nodeId == s.latestNodeId)
      = w * s.nodesPerWeight ∧
    (∀ i, i < w * s.nodesPerWeight →
      (⟨s.latestNodeId, fnv32 (strBytes (vnodeKey s.latestNodeId i))⟩ : VNode)
        ∈ (s.AddNode url w).vnodes) ∧
    (s.AddNode url w).nodes s.latestNodeId = some (MakeNode s.latestNodeId url) := by
  obtain ⟨h1, h2, h3⟩ := reachable_ringInv s h
  have hperm := List.perm_insertionSort VNode.le
    (s.vnodes ++ vnodeRange s.latestNodeId (w * s.nodesPerWeight))
  refine ⟨fun m => rfl, rfl, h2 _ le_rfl, fun vn hvn => Nat.ne_of_lt (h1 vn hvn), ?_, ?_, ?_⟩
  · have hcount :
        (s.AddNode url w).vnodes.countP (fun vn => vn.nodeId == s.latestNodeId)
          = (s.vnodes ++ vnodeRange s.latestNodeId (w * s.nodesPerWeight)).countP
              (fun vn => vn.nodeId == s.latestNodeId) :=
      hperm.countP_eq _
    rw [hcount, List.countP_append]
    have hz : s.vnodes.countP (fun vn => vn.nodeId == s.latestNodeId) = 0 := by
      refine List.countP_eq_zero.mpr ?_
      intro vn hvn
      simpa using Nat.ne_of_lt (h1 vn hvn)
    have hfull :
        (vnodeRange s.latestNodeId (w * s.nodesPerWeight)).countP
            (fun vn => vn.nodeId == s.latestNodeId)
          = (vnodeRange s.latestNodeId (w * s.nodesPerWeight)).length := by
      refine List.countP_eq_length.mpr ?_
      intro vn hvn
      obtain ⟨i, _, rfl⟩ := List.mem_map.mp hvn
      simp
    rw [hz, hfull]
    simp [vnodeRange]
  · intro i hi
    have hmem :
        (⟨s.latestNodeId, fnv32 (strBytes (vnodeKey s.latestNodeId i))⟩ : VNode)
          ∈ vnodeRange s.latestNodeId (w * s.nodesPerWeight) :=
      List.mem_map.mpr ⟨i, List.mem_range.mpr hi, rfl⟩
    exact hperm.mem_iff.mpr (List.mem_append.mpr (Or.inr hmem))
  · simp [NodeService.AddNode, MakeNode]

/-- Witness for C5: AddNode with weight 2 on a fresh ring with
nodesPerWeight 3 inserts six virtual nodes for the new id. -/
theorem addnode_fresh_id_vnodes_witness :
    Reachable (MakeNodeService 3) ∧
    ((MakeNodeService 3).AddNode "u" 2).vnodes.countP
        (fun vn => vn.nodeId == (MakeNodeService 3).latestNodeId) = 6 :=
  ⟨⟨3, [], rfl⟩, (addnode_fresh_id_vnodes (MakeNodeService 3) "u" 2 ⟨3, [], rfl⟩).2.2.2.2.1⟩

/-- C6: RemoveNode keeps exactly the virtual nodes of other ids in their
relative order, unregisters the physical node (other registry entries
untouched), and on every reachable state each virtual node's id
references a registered physical node. -/
theorem removenode_purges (s : NodeService) (id : Nat) (h : Reachable s) :
    (s.RemoveNode id).vnodes = s.vnodes.filter (fun vn => !(vn.nodeId == id)) ∧
    (s.RemoveNode id).nodes id = none ∧
    (∀ j, j ≠ id → (s.RemoveNode id).nodes j = s.nodes j) ∧
    (∀ vn ∈ s.vnodes, (s.nodes vn.nodeId).isSome = true) := by
  obtain ⟨h1, h2, h3⟩ := reachable_ringInv s h
  refine ⟨?_, ?_, ?_, h3⟩
  · show s.vnodes.filter (fun vn => id != vn.nodeId)
      = s.vnodes.filter (fun vn => !(vn.nodeId == id))
    refine List.filter_congr ?_
    intro a _
    have hcomm : (id == a.nodeId) = (a.nodeId == id) := by
      by_cases hc : id = a.nodeId
      · simp [hc]
      · simp [hc, Ne.symm hc]
    simp [bne, hcomm]
  · simp [NodeService.RemoveNode]
  · intro j hj
    simp [NodeService.RemoveNode, hj]

/-- Witness for C6 on a two-node reachable ring, removing node 0. -/
theorem removenode_purges_witness :
    Reachable (applyOps (MakeNodeService 1) [Op.add "u" 1, Op.add "v" 1]) ∧
    ((applyOps (MakeNodeService 1) [Op.add "u" 1, Op.add "v" 1]).RemoveNode 0).nodes 0 = none :=
  ⟨⟨1, [Op.add "u" 1, Op.add "v" 1], rfl⟩,
    (removenode_purges (applyOps (MakeNodeService 1) [Op.add "u" 1, Op.add "v" 1]) 0
      ⟨1, [Op.add "u" 1, Op.add "v" 1], rfl⟩).2.1⟩

/-- Correctness of the `sort.Search` loop: the result lies in [i, j], the
predicate is false strictly below it, and true at it when it is below j,
provided the predicate is monotone below the bound n and the fuel covers
the interval. -/
theorem searchGo_correct (f : Nat → Bool) (n : Nat)
    (mono : ∀ k l, k ≤ l → l < n → f k = true → f l = true) :
    ∀ fuel i j, j ≤ n → i ≤ j → j - i ≤ fuel →
      i ≤ searchGo f fuel i j ∧ searchGo f fuel i j ≤ j ∧
      (∀ k, i ≤ k → k < searchGo f fuel i j → f k = false) ∧
      (searchGo f fuel i j < j → f (searchGo f fuel i j) = true) := by
  intro fuel
  induction fuel with
  | zero =>
      intro i j hjn hij hfuel
      have hji : j = i := by omega
      subst hji
      simp only [searchGo]
      exact ⟨le_rfl, le_rfl, fun k hk1 hk2 => by omega, fun hlt => by omega⟩
  | succ fuel ih =>
      intro i j hjn hij hfuel
      by_cases hlt : i < j
      · have hmlb : i ≤ (i + j) / 2 := by omega
        have hmub : (i + j) / 2 < j := by omega
        cases hfm : f ((i + j) / 2) with
        | true =>
            have hred : searchGo f (fuel + 1) i j = searchGo f fuel i ((i + j) / 2) := by
              simp [searchGo, hlt, hfm]
            obtain ⟨a1, a2, a3, a4⟩ :=
              ih i ((i + j) / 2) (le_trans (Nat.le_of_lt hmub) hjn) hmlb (by omega)
            rw [hred]
            refine ⟨a1, le_trans a2 (Nat.le_of_lt hmub), a3, fun _ => ?_⟩
            rcases Nat.lt_or_ge (searchGo f fuel i ((i + j) / 2)) ((i + j) / 2) with hc | hc
            · exact a4 hc
            · have : searchGo f fuel i ((i + j) / 2) = (i + j) / 2 := by omega
              rw [this]
              exact hfm
        | false =>
            have hred : searchGo f (fuel + 1) i j = searchGo f fuel ((i + j) / 2 + 1) j := by
              simp [searchGo, hlt, hfm]
            obtain ⟨b1, b2, b3, b4⟩ :=
              ih ((i + j) / 2 + 1) j hjn (by omega) (by omega)
            rw [hred]
            refine ⟨by omega, b2, ?_, b4⟩
            intro k hk1 hk2
            by_cases hkm : k ≤ (i + j) / 2
            · cases hfk : f k with
              | false => rfl
              | true =>
                  have hcm := mono k ((i + j) / 2) hkm (Nat.lt_of_lt_of_le hmub hjn) hfk
                  rw [hfm] at hcm
                  exact absurd hcm (by simp)
            · exact b3 k (by omega) hk2
      · have hji : j = i := by omega
        subst hji
        simp only [searchGo, if_neg hlt]
        exact ⟨le_rfl, le_rfl, fun k hk1 hk2 => by omega, fun h2 => by omega⟩

/-- On a sorted ring, the binary search of FindNode computes exactly the
first index whose hash is ≥ the query (the list length when none is). -/
theorem sortSearch_eq_findIdx (l : List VNode) (hq : Nat)
    (hs : List.Sorted VNode.le l) :
    sortSearch l.length (fun i => decide (hq ≤ (l.getD i ⟨0, 0⟩).hash))
      = l.findIdx (fun vn => decide (hq ≤ vn.hash)) := by
  set f : Nat → Bool := fun i => decide (hq ≤ (l.getD i ⟨0, 0⟩).hash) with hf
  set p : VNode → Bool := fun vn => decide (hq ≤ vn.hash) with hp
  have hfp : ∀ k, (hk : k < l.length) → f k = p l[k] := by
    intro k hk
    simp only [hf, hp]
    rw [List.getD_eq_getElem l ⟨0, 0⟩ hk]
  have mono : ∀ k k2, k ≤ k2 → k2 < l.length → f k = true → f k2 = true := by
    intro k k2 hkk hk2 hfk
    have hk : k < l.length := Nat.lt_of_le_of_lt hkk hk2
    rw [hfp k hk] at hfk
    rw [hfp k2 hk2]
    have hle : hq ≤ (l[k]).hash := by simpa [hp] using hfk
    have hhash : (l[k]).hash ≤ (l[k2]).hash := by
      rcases Nat.eq_or_lt_of_le hkk with heq | hlt
      · subst heq
        exact le_rfl
      · exact hs.rel_get_of_lt (a := ⟨k, hk⟩) (b := ⟨k2, hk2⟩) (Fin.mk_lt_mk.mpr hlt)
    simp [hp]
    omega
  obtain ⟨m1, m2, m3, m4⟩ :=
    searchGo_correct f l.length mono l.length 0 l.length le_rfl (Nat.zero_le _) (by omega)
  set r := searchGo f l.length 0 l.length with hr
  set q := l.findIdx p with hq2
  have hql : q ≤ l.length := List.findIdx_le_length p
  rcases Nat.lt_trichotomy r q with hc | hc | hc
  · exfalso
    have hrn : r < l.length := Nat.lt_of_lt_of_le hc hql
    have h1 : f r = true := m4 hrn
    rw [hfp r hrn] at h1
    have h2 : p l[r] = false := List.not_of_lt_findIdx hc
    rw [h1] at h2
    exact Bool.noConfusion h2
  · exact hc
  · exfalso
    have hqn : q < l.length := Nat.lt_of_lt_of_le hc m2
    have h1 : p l[q] = true := List.findIdx_getElem (w := hqn)
    have h2 : f q = false := m3 q (Nat.zero_le _) hc
    rw [hfp q hqn] at h2
    rw [h1] at h2
    exact Bool.noConfusion h2

/-- C3: on a non-empty sorted ring, FindNode returns the physical node
owning the first virtual node (ascending-hash order) whose hash is ≥ the
query, wrapping to index 0 when the query exceeds every hash — the
implementation agrees with the spec-worded successor lookup, and the
wrap-around case resolves to the lowest-hash entry. -/
theorem findnode_first_geq (s : NodeService) (hq : Nat) (hne : s.vnodes ≠ [])
    (hs : List.Sorted VNode.le s.vnodes) :
    s.FindNode hq = FindNodeSpec s hq ∧
    ((∀ vn ∈ s.vnodes, vn.hash < hq) →
      s.FindNode hq = (s.nodes ((s.vnodes.getD 0 ⟨0, 0⟩).nodeId)).getD (MakeNode 0 "")) := by
  have heq := sortSearch_eq_findIdx s.vnodes hq hs
  constructor
  · simp only [NodeService.FindNode, FindNodeSpec, heq]
  · intro hall
    have hfull : s.vnodes.findIdx (fun vn => decide (hq ≤ vn.hash)) = s.vnodes.length := by
      have hle := @List.findIdx_le_length VNode (fun vn => decide (hq ≤ vn.hash)) s.vnodes
      rcases Nat.lt_or_ge (s.vnodes.findIdx (fun vn => decide (hq ≤ vn.hash))) s.vnodes.length
        with hc | hc
      · exfalso
        have h1 : decide (hq ≤ (s.vnodes[s.vnodes.findIdx (fun vn => decide (hq ≤ vn.hash))]).hash) = true :=
          List.findIdx_getElem (w := hc)
        have h2 := hall _ (List.getElem_mem hc)
        simp at h1
        omega
      · omega
    simp only [NodeService.FindNode, heq, hfull, if_pos]

/-- Witness for C3: a one-vnode reachable ring, queried below its hash. -/
theorem findnode_first_geq_witness :
    (applyOps (MakeNodeService 1) [Op.add "u" 1]).vnodes ≠ [] ∧
    List.Sorted VNode.le (applyOps (MakeNodeService 1) [Op.add "u" 1]).vnodes ∧
    (applyOps (MakeNodeService 1) [Op.add "u" 1]).FindNode 7
      = FindNodeSpec (applyOps (MakeNodeService 1) [Op.add "u" 1]) 7 :=
  ⟨by decide, by decide,
    (findnode_first_geq (applyOps (MakeNodeService 1) [Op.add "u" 1]) 7
      (by decide) (by decide)).1⟩

/-- C9: two distinct virtual-node keys with the same FNV-1a hash — the
keys of virtual node 3607 of physical node 8 and virtual node 5800 of
physical node 25 both hash to 927469898, so a ring holding both (e.g.
nodesPerWeight 5801, twenty-six AddNode calls of weight 1) has two
equal-hash entries whose relative order Go's `sort.Slice` (an unstable
sort, invoked with a hash-only comparator) does not pin down. -/
theorem vnode_hash_collision :
    vnodeKey 8 3607 ≠ vnodeKey 25 5800 ∧
    fnv32 (strBytes (vnodeKey 8 3607)) = 927469898 ∧
    fnv32 (strBytes (vnodeKey 25 5800)) = 927469898 := by decide
